import Mathlib

/-!
Verification development for the AppealsPOC repository (`src/index.js`).

The file shallowly embeds the logic the specification talks about:

* the rule-based fallback decision cascade of `app.post(\x7b/analyze\x7d)`
  (index.js lines 422-476),
* the GFR pattern extraction step of `extractClinicalData` (lines 192-196),
* the medical term expander `expandMedicalTerms` (lines 155-178),
* the model-response JSON extractor `extractJSONFromText` (lines 359-389)
  together with a model of `JSON.parse`, and
* the decision-construction part of the `/analyze` handler (lines 349-494).

Modelling conventions: JavaScript numbers are modelled as rationals (all
numeric literals appearing in the embedded code - 15, 60, 3.5, 1.0, 0.5 ..
0.9 - are exactly representable and their comparisons agree with IEEE-754
doubles on these values); absent (`undefined`/`null`) optional values are
`Option.none`; JS truthiness of a numeric field is `some q` with `q ≠ 0`
(`NaN` is outside the numeric model); side-effect-free request handling is
embedded as pure functions, and timestamps / logging are omitted.  Template
literal rationale strings are represented by constructors carrying the
interpolated values (JS number-to-string formatting is out of scope).
-/

namespace AppealsPOC

/-! ### Character utilities (ASCII case folding, JS character classes) -/

/-- ASCII lower-casing, as performed by the `i` flag of the JS regexes in
`index.js` on the ASCII letters involved. -/
def asciiLower (c : Char) : Char :=
  if 'A' ≤ c ∧ c ≤ 'Z' then Char.ofNat (c.toNat + 32) else c

/-- Case-insensitive character comparison (the `i` regex flag). -/
def ciEq (a b : Char) : Bool := asciiLower a == asciiLower b

/-- The JS regex word-character class `\w` = `[A-Za-z0-9_]`. -/
def isWordChar (c : Char) : Bool :=
  ('A' ≤ c && c ≤ 'Z') || ('a' ≤ c && c ≤ 'z') || ('0' ≤ c && c ≤ '9') || (c == '_')

/-- The JS regex whitespace class `\s` restricted to its ASCII members
(space, tab, line feed, vertical tab, form feed, carriage return). -/
def isWsChar (c : Char) : Bool :=
  (c == ' ') || (c == '\t') || (c == '\n') || (c == '\x0b') || (c == '\x0c') || (c == '\r')

/-! ### The fallback decision cascade (index.js lines 422-476) -/

/-- A complication entry of a `ClinicalData` record
(`\x7bname, description\x7d`, as produced by `extractClinicalData`). -/
structure Complication where
  name : String
  description : String
deriving DecidableEq, Repr

/-- The `ClinicalData` record of the data model: optional numeric labs,
optional blood pressure string, optional diabetes flag, complication list.
Absent fields are `none` / `[]`. -/
structure ClinicalData where
  gfr : Option ℚ := none
  creatinine : Option ℚ := none
  bun : Option ℚ := none
  proteinuria : Option ℚ := none
  bloodPressure : Option String := none
  diabetes : Option Bool := none
  complications : List Complication := []
deriving DecidableEq, Repr

/-- Rationale messages pushed by the fallback rules.  The JS code pushes
template-literal strings; each constructor records which template was pushed
and the interpolated values. -/
inductive RationaleEntry where
  /-- "GFR of ... indicates end-stage renal disease" (line 432). -/
  | gfrEndStage (g : ℚ)
  /-- "GFR of ... indicates normal or mildly reduced kidney function" (line 436). -/
  | gfrNormal (g : ℚ)
  /-- "GFR of ... requires additional clinical context" (line 440). -/
  | gfrContext (g : ℚ)
  /-- "Significant proteinuria of ... indicates severe kidney damage" (line 449). -/
  | proteinuriaSevere (p : ℚ)
  /-- "Mild proteinuria of ... may not require immediate intervention" (line 455). -/
  | proteinuriaMild (p : ℚ)
  /-- "Presence of complications: ..." (line 463). -/
  | complicationsPresent (names : List String)
deriving DecidableEq, Repr

/-- The mutable state threaded through the fallback cascade:
`let decision = 'REVIEW'; let confidence = 0.5; let rationale = [];`
(index.js lines 423-425). -/
structure FallbackState where
  decision : String
  confidence : ℚ
  rationale : List RationaleEntry
deriving DecidableEq, Repr

/-- Initial fallback state (index.js lines 423-425). -/
def initState : FallbackState := ⟨"REVIEW", mkRat 1 2, []⟩

/-- JS truthiness of an optional numeric field: `undefined`, `null` and `0`
are falsy. -/
def truthyQ : Option ℚ → Bool
  | none => false
  | some q => q != 0

/-- Fallback rule 1, `if (clinicalData.gfr) \x7b ... \x7d`
(index.js lines 428-442). -/
def rule1 (cd : ClinicalData) (s : FallbackState) : FallbackState :=
  match cd.gfr with
  | none => s
  | some g =>
    if g ≠ 0 then
      if g < 15 then
        ⟨"APPROVE", mkRat 9 10, s.rationale ++ [.gfrEndStage g]⟩
      else if g ≥ 60 then
        ⟨"REJECT", mkRat 4 5, s.rationale ++ [.gfrNormal g]⟩
      else
        ⟨"REVIEW", mkRat 3 5, s.rationale ++ [.gfrContext g]⟩
    else s

/-- Fallback rule 2, `if (clinicalData.proteinuria) \x7b ... \x7d`
(index.js lines 445-457).  The low-proteinuria branch only rewrites the
decision when it is currently `APPROVE`, but always pushes its rationale. -/
def rule2 (cd : ClinicalData) (s : FallbackState) : FallbackState :=
  match cd.proteinuria with
  | none => s
  | some p =>
    if p ≠ 0 then
      if p > mkRat 7 2 then
        ⟨"APPROVE", max s.confidence (mkRat 17 20), s.rationale ++ [.proteinuriaSevere p]⟩
      else if p < 1 then
        if s.decision = "APPROVE" then
          ⟨"REVIEW", mkRat 7 10, s.rationale ++ [.proteinuriaMild p]⟩
        else
          ⟨s.decision, s.confidence, s.rationale ++ [.proteinuriaMild p]⟩
      else s
    else s

/-- Fallback rule 3, `if (clinicalData.complications && ... .length > 0)`
(index.js lines 460-464). -/
def rule3 (cd : ClinicalData) (s : FallbackState) : FallbackState :=
  if cd.complications ≠ [] then
    ⟨"APPROVE", max s.confidence (mkRat 4 5),
      s.rationale ++ [.complicationsPresent (cd.complications.map (·.name))]⟩
  else s

/-- The complete fallback cascade: rules 1, 2, 3 applied in order to the
initial state (index.js lines 422-464). -/
def fallbackDecision (cd : ClinicalData) : FallbackState :=
  rule3 cd (rule2 cd (rule1 cd initState))

/-! ### GFR extraction (index.js lines 192-196)

The regex
`(?:GFR|eGFR|glomerular filtration rate)[:\s]*([0-9]+(?:\.[0-9]+)?)\s*(?:mL\/min\/1\.73m²|ml\/min\/1\.73m2)`
with the `i` flag is embedded as a direct matcher over character lists.
JS regex search is leftmost-match: positions are tried left to right, and at
a position the alternatives are tried in order.  The character classes of
the pattern make the greedy quantifiers deterministic here (no alternative
is recovered by backtracking into `[:\s]*`, `[0-9]+` or `\s*`, since each
is followed by a character disjoint from its class). -/

/-- Case-insensitive literal match of `pat` at the head of `cs`; returns the
remaining input on success. -/
def matchCI : List Char → List Char → Option (List Char)
  | [], cs => some cs
  | _ :: _, [] => none
  | p :: ps, c :: cs => if ciEq p c then matchCI ps cs else none

/-- Greedily skip the `[:\s]*` part of the GFR regex. -/
def skipColonWs : List Char → List Char
  | [] => []
  | c :: cs => if c == ':' || isWsChar c then skipColonWs cs else c :: cs

/-- Greedily skip `\s*`. -/
def skipWsList : List Char → List Char
  | [] => []
  | c :: cs => if isWsChar c then skipWsList cs else c :: cs

/-- Greedily take a maximal run of decimal digits (`[0-9]+`-style). -/
def takeDigits : List Char → List Char × List Char
  | [] => ([], [])
  | c :: cs =>
    if c.isDigit then
      let r := takeDigits cs
      (c :: r.1, r.2)
    else ([], c :: cs)

/-- Value of a digit string. -/
def digitsToNat (ds : List Char) : ℕ :=
  ds.foldl (fun n c => 10 * n + (c.toNat - 48)) 0

/-- Parse the captured number `([0-9]+(?:\.[0-9]+)?)` and return its value
as composed by `parseFloat` on the captured group, with the rest of the
input.  The optional fraction is taken only when a digit follows the dot. -/
def parseCapturedNumber (cs : List Char) : Option (ℚ × List Char) :=
  match takeDigits cs with
  | ([], _) => none
  | (ds, rest) =>
    match rest with
    | '.' :: rest2 =>
      match takeDigits rest2 with
      | ([], _) => some (mkRat (digitsToNat ds) 1, rest)
      | (fs, rest3) => some (mkRat (digitsToNat (ds ++ fs)) (10 ^ fs.length), rest3)
    | _ => some (mkRat (digitsToNat ds) 1, rest)

/-- Match the unit alternatives `mL\/min\/1\.73m²|ml\/min\/1\.73m2` (both
case-insensitive under the `i` flag, so they differ only in the final
character). -/
def matchUnit (cs : List Char) : Option (List Char) :=
  match matchCI "mL/min/1.73m".data cs with
  | some ('²' :: r) => some r
  | some ('2' :: r) => some r
  | _ => none

/-- After a label alternative has matched: `[:\s]*`, the captured number,
`\s*`, then the unit.  Returns the captured value. -/
def gfrAfterLabel (cs : List Char) : Option ℚ :=
  match parseCapturedNumber (skipColonWs cs) with
  | none => none
  | some (q, rest) =>
    match matchUnit (skipWsList rest) with
    | some _ => some q
    | none => none

/-- The label alternatives, in the order the regex tries them. -/
def gfrLabels : List (List Char) :=
  ["GFR".data, "eGFR".data, "glomerular filtration rate".data]

/-- Try the whole GFR pattern at the current position. -/
def gfrMatchAt (cs : List Char) : Option ℚ :=
  (gfrLabels.filterMap (fun lab => (matchCI lab cs).bind gfrAfterLabel)).head?

/-- Leftmost-match scan for the GFR pattern. -/
def extractGFRAux : List Char → Option ℚ
  | [] => none
  | c :: cs =>
    match gfrMatchAt (c :: cs) with
    | some q => some q
    | none => extractGFRAux cs

/-- The GFR field of `extractClinicalData` (index.js lines 192-196): the
captured number of the first match of the GFR regex, or `none` when the
pattern does not match. -/
def extractGFR (text : String) : Option ℚ :=
  extractGFRAux text.data

/-- Case-sensitive: `needle` is an initial segment of `hay`. -/
def startsWith : List Char → List Char → Bool
  | [], _ => true
  | _ :: _, [] => false
  | a :: as, b :: bs => (a == b) && startsWith as bs

/-- Case-sensitive substring containment (the spec's "text containing ..."). -/
def occursIn (needle : List Char) : List Char → Bool
  | [] => needle.isEmpty
  | c :: cs => startsWith needle (c :: cs) || occursIn needle cs

/-! ### Term expansion (index.js lines 155-178)

`expandMedicalTerms` builds, per abbreviation `abbr` of the terminology
table, the regex `` new RegExp(`\\b` + abbr + `\\b`, 'gi') `` and, when it
matches, records the first matched substring (`text.match(regex)[0]`).  The
matcher below embeds that regex for abbreviations made of word characters
(`[A-Za-z0-9_]`), which is what the abbreviation table contains; for such an
abbreviation, `\b abbr \b` matches exactly at positions where the preceding
character (if any) and the following character (if any) are non-word. -/

/-- Case-insensitive match of `abbr` at the head of `cs`, returning the
matched slice of `cs` (original casing) and the rest. -/
def ciSlice : List Char → List Char → Option (List Char × List Char)
  | [], cs => some ([], cs)
  | _ :: _, [] => none
  | p :: ps, c :: cs =>
    if ciEq p c then
      match ciSlice ps cs with
      | some (sl, r) => some (c :: sl, r)
      | none => none
    else none

/-- Left word-boundary test given the preceding character (`none` at the
start of the text). -/
def boundaryL : Option Char → Bool
  | none => true
  | some p => !isWordChar p

/-- Right word-boundary test given the input following the match. -/
def boundaryR : List Char → Bool
  | [] => true
  | c :: _ => !isWordChar c

/-- Try `\b abbr \b` (case-insensitive) at the current position, `prev`
being the character just before it. -/
def wbHere (abbr : List Char) (prev : Option Char) (cs : List Char) : Option (List Char) :=
  if boundaryL prev then
    match ciSlice abbr cs with
    | some (sl, r) => if boundaryR r then some sl else none
    | none => none
  else none

/-- Leftmost-match scan for `\b abbr \b`; returns the first matched
substring (`text.match(regex)[0]`). -/
def findWBAux (abbr : List Char) (prev : Option Char) : List Char → Option (List Char)
  | [] => none
  | c :: cs =>
    match wbHere abbr prev (c :: cs) with
    | some sl => some sl
    | none => findWBAux abbr (some c) cs

/-- First word-bounded case-insensitive match of `abbr` in `text`. -/
def findWB (abbr text : List Char) : Option (List Char) :=
  findWBAux abbr none text

/-- A term expansion entry as pushed by `expandMedicalTerms`
(index.js lines 165-169); `context` is the spec's `matchedText`. -/
structure TermExpansion where
  abbreviation : String
  fullName : String
  context : String
deriving DecidableEq, Repr

/-- The value returned by `expandMedicalTerms` (index.js lines 173-177). -/
structure ExpandResult where
  originalText : String
  expandedText : String
  expansions : List TermExpansion
deriving DecidableEq, Repr

/-- `expandMedicalTerms` (index.js lines 155-178), parameterised by the
abbreviation table (`knowledge-base.json` is external data): for each table
entry in order, if `\b abbr \b` matches the text case-insensitively, push
`\x7babbreviation, fullName, context\x7d` with `context` the first matched
substring.  The text is returned unchanged. -/
def expandMedicalTerms (table : List (String × String)) (text : String) : ExpandResult :=
  { originalText := text
    expandedText := text
    expansions :=
      table.foldl (fun acc p =>
        match findWB p.1.data text.data with
        | some sl => acc ++ [⟨p.1, p.2, String.mk sl⟩]
        | none => acc) [] }

/-! #### Declarative word-bounded occurrence

`occAt abbr text i` is the statement, written positionally and independently
of the scanner, that a word-bounded case-insensitive occurrence of `abbr`
starts at index `i` of `text`. -/

/-- Pointwise case-insensitive equality of two character lists. -/
def ciListEq : List Char → List Char → Bool
  | [], [] => true
  | _ :: _, [] => false
  | [], _ :: _ => false
  | a :: as, b :: bs => ciEq a b && ciListEq as bs

/-- The slice of `text` of length `len` starting at index `i`. -/
def sliceAt (text : List Char) (i len : ℕ) : List Char :=
  (text.drop i).take len

/-- Word-bounded case-insensitive occurrence of `abbr` at index `i`. -/
def occAt (abbr text : List Char) (i : ℕ) : Bool :=
  decide (i + abbr.length ≤ text.length) &&
  ciListEq abbr (sliceAt text i abbr.length) &&
  (match i with
   | 0 => true
   | j + 1 =>
     match text.get? j with
     | some p => !isWordChar p
     | none => false) &&
  (match text.get? (i + abbr.length) with
   | some c => !isWordChar c
   | none => true)

/-! ### A model of `JSON.parse`

`extractJSONFromText` (index.js lines 359-389) calls `JSON.parse` on
candidate substrings.  `JSON.parse` is modelled by a recursive-descent
parser over the JSON grammar (RFC 8259): values are objects, arrays,
strings, numbers, `true`/`false`/`null`; insignificant whitespace is space,
tab, line feed, carriage return; the whole input must be consumed.  A
failure (`none`) models a thrown `SyntaxError`.  Unicode escapes are decoded
to the code unit's character (surrogate-pair recombination is out of scope;
no claim involves it).  Duplicate object keys are kept in order; field
access (`jsGet`) takes the last binding, as `JSON.parse` does. -/

/-- A parsed JSON value. -/
inductive JsonVal where
  | null
  | bool (b : Bool)
  | num (q : ℚ)
  | str (s : String)
  | arr (elems : List JsonVal)
  | obj (fields : List (String × JsonVal))

/-- The opening-brace character, `U+007B`. -/
def lbraceChar : Char := Char.ofNat 123

/-- The closing-brace character, `U+007D`. -/
def rbraceChar : Char := Char.ofNat 125

/-- JSON insignificant whitespace. -/
def isJsonWs (c : Char) : Bool :=
  (c == ' ') || (c == '\t') || (c == '\n') || (c == '\r')

/-- Skip JSON whitespace. -/
def skipJWs : List Char → List Char
  | [] => []
  | c :: cs => if isJsonWs c then skipJWs cs else c :: cs

/-- Hexadecimal digit value. -/
def hexVal (c : Char) : Option ℕ :=
  if '0' ≤ c ∧ c ≤ '9' then some (c.toNat - 48)
  else if 'a' ≤ c ∧ c ≤ 'f' then some (c.toNat - 87)
  else if 'A' ≤ c ∧ c ≤ 'F' then some (c.toNat - 55)
  else none

/-- The single-character JSON escapes, as escape-to-character pairs. -/
def escTable : List (Char × Char) :=
  [('"', '"'), ('\\', '\\'), ('/', '/'), ('b', '\x08'), ('f', '\x0c'),
   ('n', '\n'), ('r', '\r'), ('t', '\t')]

/-- The character denoted by a single-character JSON escape. -/
def escChar (c : Char) : Option Char :=
  escTable.lookup c

/-- Parse the body of a JSON string after the opening quote; returns the
denoted characters and the input after the closing quote.  Raw control
characters below `U+0020` are rejected, as in `JSON.parse`. -/
def parseStringBody : List Char → Option (List Char × List Char)
  | [] => none
  | '"' :: r => some ([], r)
  | '\\' :: 'u' :: h1 :: h2 :: h3 :: h4 :: rest =>
    match hexVal h1, hexVal h2, hexVal h3, hexVal h4 with
    | some a, some b, some c, some d =>
      match parseStringBody rest with
      | some (sl, r) => some (Char.ofNat (((a * 16 + b) * 16 + c) * 16 + d) :: sl, r)
      | none => none
    | _, _, _, _ => none
  | '\\' :: e :: rest =>
    match escChar e with
    | some c =>
      match parseStringBody rest with
      | some (sl, r) => some (c :: sl, r)
      | none => none
    | none => none
  | c :: rest =>
    if c.toNat < 32 then none
    else
      match parseStringBody rest with
      | some (sl, r) => some (c :: sl, r)
      | none => none

/-- Parse a JSON number (`-? int frac? exp?`, leading zeros rejected).
Returns its exact rational value. -/
def parseJNumber (cs : List Char) : Option (ℚ × List Char) :=
  let signRes : Bool × List Char :=
    match cs with
    | '-' :: r => (true, r)
    | _ => (false, cs)
  match takeDigits signRes.2 with
  | ([], _) => none
  | (ds, rest1) =>
    if ds.length > 1 && (ds.head? == some '0') then none
    else
      let fracRes : Option (List Char × List Char) :=
        match rest1 with
        | '.' :: r =>
          match takeDigits r with
          | ([], _) => none
          | (fs, r2) => some (fs, r2)
        | _ => some ([], rest1)
      match fracRes with
      | none => none
      | some (fs, rest2) =>
        let expRes : Option (Bool × List Char × List Char) :=
          match rest2 with
          | 'e' :: '+' :: r | 'E' :: '+' :: r =>
            (match takeDigits r with
             | ([], _) => none
             | (es, r2) => some (false, es, r2))
          | 'e' :: '-' :: r | 'E' :: '-' :: r =>
            (match takeDigits r with
             | ([], _) => none
             | (es, r2) => some (true, es, r2))
          | 'e' :: r | 'E' :: r =>
            (match takeDigits r with
             | ([], _) => none
             | (es, r2) => some (false, es, r2))
          | _ => some (false, [], rest2)
        match expRes with
        | none => none
        | some (expNeg, es, rest3) =>
          let mag : ℤ := (digitsToNat (ds ++ fs) : ℤ)
          let sgn : ℤ := if signRes.1 then -mag else mag
          let e : ℕ := digitsToNat es
          let num : ℤ := sgn * (if expNeg then 1 else (10 : ℤ) ^ e)
          let den : ℕ := 10 ^ fs.length * (if expNeg then 10 ^ e else 1)
          some (mkRat num den, rest3)

mutual

/-- Parse a JSON value (fuel-indexed; the fuel bounds the recursion depth
and is chosen larger than the input length by the entry point `jsonParse`). -/
def parseVal : ℕ → List Char → Option (JsonVal × List Char)
  | 0, _ => none
  | fuel + 1, cs =>
    match skipJWs cs with
    | [] => none
    | c :: rest =>
      if c == lbraceChar then
        match skipJWs rest with
        | d :: r2 =>
          if d == rbraceChar then some (.obj [], r2)
          else parseMembers fuel (d :: r2) []
        | [] => none
      else if c == '[' then
        match skipJWs rest with
        | ']' :: r2 => some (.arr [], r2)
        | r2 => parseElems fuel r2 []
      else if c == '"' then
        match parseStringBody rest with
        | some (sl, r) => some (.str (String.mk sl), r)
        | none => none
      else if c == 't' then
        match rest with
        | 'r' :: 'u' :: 'e' :: r => some (.bool true, r)
        | _ => none
      else if c == 'f' then
        match rest with
        | 'a' :: 'l' :: 's' :: 'e' :: r => some (.bool false, r)
        | _ => none
      else if c == 'n' then
        match rest with
        | 'u' :: 'l' :: 'l' :: r => some (.null, r)
        | _ => none
      else
        match parseJNumber (c :: rest) with
        | some (q, r) => some (.num q, r)
        | none => none

/-- Parse the members of a JSON object, positioned at the first key. -/
def parseMembers : ℕ → List Char → List (String × JsonVal) → Option (JsonVal × List Char)
  | 0, _, _ => none
  | fuel + 1, cs, acc =>
    match skipJWs cs with
    | '"' :: r =>
      match parseStringBody r with
      | some (k, r2) =>
        match skipJWs r2 with
        | ':' :: r3 =>
          match parseVal fuel r3 with
          | some (v, r4) =>
            match skipJWs r4 with
            | ',' :: r5 => parseMembers fuel r5 (acc ++ [(String.mk k, v)])
            | d :: r5 =>
              if d == rbraceChar then some (.obj (acc ++ [(String.mk k, v)]), r5)
              else none
            | [] => none
          | none => none
        | _ => none
      | none => none
    | _ => none

/-- Parse the elements of a JSON array, positioned at the first element. -/
def parseElems : ℕ → List Char → List JsonVal → Option (JsonVal × List Char)
  | 0, _, _ => none
  | fuel + 1, cs, acc =>
    match parseVal fuel cs with
    | some (v, r) =>
      match skipJWs r with
      | ',' :: r2 => parseElems fuel r2 (acc ++ [v])
      | ']' :: r2 => some (.arr (acc ++ [v]), r2)
      | _ => none
    | none => none

end

/-- `JSON.parse`: parse a complete JSON text; trailing non-whitespace is a
syntax error. -/
def jsonParse (cs : List Char) : Option JsonVal :=
  match parseVal (2 * cs.length + 8) cs with
  | some (v, rest) => if skipJWs rest = [] then some v else none
  | none => none

/-! ### `extractJSONFromText` (index.js lines 359-389)

Step 1 strips markdown fences: a global case-insensitive replace of
```` ```\s*json\s* ```` by the empty string, then a global replace of
```` ``` ````, then `trim()`.  Step 2 takes the substring from the first
`U+007B` to the last `U+007D` of the cleaned text (when both exist in that
order) and tries `JSON.parse` on it.  Step 3, on failure, matches
```` ```json([\s\S]*?)``` ```` (case-insensitive, lazy) against the ORIGINAL
text and, when the capture is non-empty, tries `JSON.parse` on its trim.
Otherwise the function throws (modelled as `none`).  The guard
`if (!t || ...)` also throws on the empty string, which is falsy. -/

/-- Match ```` ```\s*json\s* ```` at the head of the input, returning the
rest.  The greedy `\s*` runs are deterministic (`j` and the end of the
pattern follow them). -/
def fenceEnd (cs : List Char) : Option (List Char) :=
  match cs with
  | a :: b :: c :: r =>
    if a == '`' && b == '`' && c == '`' then
      match matchCI "json".data (skipWsList r) with
      | some r3 => some (skipWsList r3)
      | none => none
    else none
  | _ => none

/-- The global replace of ```` ```\s*json\s* ```` by the empty string:
non-overlapping leftmost matches are removed, scanning left to right.  The
fuel dominates the input length (a match consumes at least three
characters, so length-many steps always suffice); it keeps the recursion
structural. -/
def stripFence1Fuel : ℕ → List Char → List Char
  | _, [] => []
  | 0, cs => cs
  | fuel + 1, c :: cs =>
    match fenceEnd (c :: cs) with
    | some r => stripFence1Fuel fuel r
    | none => c :: stripFence1Fuel fuel cs

/-- The global replace of ```` ```\s*json\s* ```` by the empty string. -/
def stripFence1 (cs : List Char) : List Char :=
  stripFence1Fuel cs.length cs

/-- The global replace of ```` ``` ```` by the empty string. -/
def stripTicks : List Char → List Char
  | '`' :: '`' :: '`' :: r => stripTicks r
  | c :: cs => c :: stripTicks cs
  | [] => []

/-- `String.prototype.trim`: whitespace removed from both ends. -/
def trimList (cs : List Char) : List Char :=
  (skipWsList (skipWsList cs).reverse).reverse

/-- `indexOf`: index of the first occurrence of `c`. -/
def idxOf? (c : Char) : List Char → Option ℕ
  | [] => none
  | d :: ds => if d == c then some 0 else (idxOf? c ds).map (· + 1)

/-- `lastIndexOf`: index of the last occurrence of `c`. -/
def lastIdxOf? (c : Char) (cs : List Char) : Option ℕ :=
  (idxOf? c cs.reverse).map (fun i => cs.length - 1 - i)

/-- Characters strictly before the first ```` ``` ````; `none` when the
input contains no ```` ``` ```` (the lazy `([\s\S]*?)``` ` tail of the
markdown-block regex). -/
def capTicks : List Char → Option (List Char)
  | '`' :: '`' :: '`' :: _ => some []
  | c :: cs => (capTicks cs).map (c :: ·)
  | [] => none

/-- Leftmost match of ```` ```json([\s\S]*?)``` ```` (case-insensitive):
returns the capture. -/
def mdJsonFind : List Char → Option (List Char)
  | [] => none
  | c :: cs =>
    match matchCI "```json".data (c :: cs) with
    | some r =>
      match capTicks r with
      | some inner => some inner
      | none => mdJsonFind cs
    | none => mdJsonFind cs

/-- The fence-stripped, trimmed text of step 1. -/
def fenceCleaned (t : String) : List Char :=
  trimList (stripTicks (stripFence1 t.data))

/-- `extractJSONFromText` (index.js lines 359-389); `none` models a thrown
error. -/
def extractJSONFromText (t : String) : Option JsonVal :=
  if t = "" then none
  else
    let cleaned := fenceCleaned t
    let step2 : Option JsonVal :=
      match idxOf? lbraceChar cleaned, lastIdxOf? rbraceChar cleaned with
      | some fb, some lb =>
        if fb ≤ lb then jsonParse ((cleaned.drop fb).take (lb + 1 - fb)) else none
      | _, _ => none
    match step2 with
    | some v => some v
    | none =>
      match mdJsonFind t.data with
      | some inner =>
        if inner = [] then none
        else jsonParse (trimList inner)
      | none => none

/-! #### The parser as described by the specification (for claim C6)

The spec's words: "strip markdown code fences, locate the first balanced
`\x7b...\x7d` span, parse that; if that fails, attempt extracting a fenced
```` ```json ```` block; if both fail, treat it as an external-path
failure". -/

/-- The span starting after an opening brace up to the brace that returns
the nesting depth to zero. -/
def spanFrom : List Char → ℕ → Option (List Char)
  | [], _ => none
  | c :: cs, d =>
    if c == lbraceChar then (spanFrom cs (d + 1)).map (c :: ·)
    else if c == rbraceChar then
      if d ≤ 1 then some [c]
      else (spanFrom cs (d - 1)).map (c :: ·)
    else (spanFrom cs d).map (c :: ·)

/-- The first balanced `\x7b...\x7d` span of the input: from the first
opening brace to its matching closing brace. -/
def firstBalancedSpan : List Char → Option (List Char)
  | [] => none
  | c :: cs =>
    if c == lbraceChar then (spanFrom cs 1).map (c :: ·)
    else firstBalancedSpan cs

/-- The model-response parser as the specification describes it (spec §4.3):
identical to `extractJSONFromText` except that step 2 parses the FIRST
BALANCED brace span of the cleaned text. -/
def specExtractJSON (t : String) : Option JsonVal :=
  if t = "" then none
  else
    let step2 : Option JsonVal :=
      match firstBalancedSpan (fenceCleaned t) with
      | some span => jsonParse span
      | none => none
    match step2 with
    | some v => some v
    | none =>
      match mdJsonFind t.data with
      | some inner =>
        if inner = [] then none
        else jsonParse (trimList inner)
      | none => none

/-- Step 2 of the three-step algorithm as the code implements it: the
substring from the first opening brace to the last closing brace of the
cleaned text, when both exist in that order. -/
def braceSpanCandidate (cs : List Char) : Option (List Char) :=
  match idxOf? lbraceChar cs, lastIdxOf? rbraceChar cs with
  | some fb, some lb => if fb ≤ lb then some ((cs.drop fb).take (lb + 1 - fb)) else none
  | _, _ => none

/-- Step 3 candidate: the trimmed non-empty capture of the fenced
```` ```json ```` block of the original text. -/
def mdJsonCandidate (t : String) : Option (List Char) :=
  match mdJsonFind t.data with
  | some inner => if inner = [] then none else some (trimList inner)
  | none => none

/-- The three-step algorithm of the amended claim C6: strip fences; parse
the first-brace-to-last-brace span; else parse the fenced json block; else
fail. -/
def threeStepExtract (t : String) : Option JsonVal :=
  if t = "" then none
  else
    match (braceSpanCandidate (fenceCleaned t)).bind (fun c => jsonParse c) with
    | some v => some v
    | none => (mdJsonCandidate t).bind (fun c => jsonParse c)

/-! ### The `/analyze` decision construction (index.js lines 349-494)

The handler tries the external-model path: obtain the model's text, run
`extractJSONFromText`, and build `decisionMetadata` by reading the fields
`decision`, `confidence`, `rationale`, `key_factors`, `recommendations` off
the parsed value (property reads on a parsed non-object yield `undefined`;
a parsed `null` throws a `TypeError` on the first read, landing in the
catch).  Any throw in that path lands in the `catch (aiError)` block, which
computes the rule-based fallback and reports `aiModel:
'rule-based-fallback'`.  Both paths respond with HTTP 200.  Timestamps,
`clinicalData` echoing and `extractedTextLength` are omitted from the
model. -/

/-- JS property read on a parsed JSON value: `undefined` (`none`) unless the
value is an object with the key; the last binding wins, as in `JSON.parse`
duplicate-key semantics. -/
def jsGet (v : JsonVal) (k : String) : Option JsonVal :=
  match v with
  | .obj fields => fields.reverse.lookup k
  | _ => none

/-- The `decisionMetadata` of a response: either the external-model object
(fields read verbatim off the parsed value) or the fallback state.  The
`aiModel` source marker is determined by the constructor. -/
inductive DecisionMeta where
  | external (decision confidence rationale keyFactors recommendations : Option JsonVal)
  | fallback (st : FallbackState)

/-- The `aiModel` field of `decisionMetadata`
(index.js lines 403 and 475). -/
def DecisionMeta.aiModel : DecisionMeta → String
  | .external _ _ _ _ _ => "gemini-pro"
  | .fallback _ => "rule-based-fallback"

/-- The external-model attempt (the body of the inner `try`, lines 352-414),
given the text the model returned: extract JSON, then build the metadata.
Errors (`Except.error`) are the throws the `catch (aiError)` receives:
unusable text, unparsable JSON, or the `TypeError` raised by reading a
property of a parsed `null`. -/
def externalAttempt (t : String) : Except String DecisionMeta :=
  match extractJSONFromText t with
  | none => .error "Unable to parse JSON from AI response"
  | some v =>
    match v with
    | .null => .error "TypeError: cannot read properties of null"
    | _ => .ok (.external (jsGet v "decision") (jsGet v "confidence") (jsGet v "rationale")
        (jsGet v "key_factors") (jsGet v "recommendations"))

/-- A `/analyze` response: HTTP status and the `decisionMetadata` of the
body (`auditAction` is the audit entry's `action` field). -/
structure AnalyzeResponse where
  status : ℕ
  decision : DecisionMeta
  auditAction : String

/-- The decision construction of the `/analyze` handler: the external path
if the model text yields a usable parsed value, else the rule-based
fallback; both respond 200. -/
def analyzeRespond (t : String) (cd : ClinicalData) : AnalyzeResponse :=
  match externalAttempt t with
  | .ok m => ⟨200, m, "ai_decision_generated"⟩
  | .error _ => ⟨200, .fallback (fallbackDecision cd), "rule_based_decision_generated"⟩

/-- The three admissible outcomes of the data model's `Decision`. -/
def outcomeSet : List String := ["APPROVE", "REJECT", "REVIEW"]

/-- The decision metadata's outcome is one of the three admissible strings
(on the external path, the `decision` field must be such a string). -/
def DecisionMeta.outcomeOK : DecisionMeta → Prop
  | .external d _ _ _ _ => ∃ s, d = some (.str s) ∧ s ∈ outcomeSet
  | .fallback st => st.decision ∈ outcomeSet

/-- The decision metadata's confidence is a number in `[0, 1]`. -/
def DecisionMeta.confidenceOK : DecisionMeta → Prop
  | .external _ c _ _ _ => ∃ q, c = some (.num q) ∧ 0 ≤ q ∧ q ≤ 1
  | .fallback st => 0 ≤ st.confidence ∧ st.confidence ≤ 1

/-- Invariant of a fallback state: admissible outcome string and confidence
in `[0, 1]`. -/
def stateInv (s : FallbackState) : Prop :=
  s.decision ∈ outcomeSet ∧ 0 ≤ s.confidence ∧ s.confidence ≤ 1

/-! ## Theorems -/

/-! ### C1: the GFR rule of the fallback cascade -/

/-- C1 counterexample.  The claim quantifies over every record "in which GFR
is present", but the guard `if (clinicalData.gfr)` is a JS truthiness test:
with `gfr: 0` (present, and `0 < 15`) rule 1 does not fire, and the final
decision is REVIEW at confidence 0.5 rather than the claimed APPROVE at
0.9. -/
theorem gfr_rule_zero_counterexample :
    (({ gfr := some 0 } : ClinicalData).gfr = some 0 ∧ (0 : ℚ) < 15) ∧
    rule1 { gfr := some 0 } initState = initState ∧
    fallbackDecision { gfr := some 0 } = ⟨"REVIEW", mkRat 1 2, []⟩ ∧
    ¬ ((fallbackDecision { gfr := some 0 }).decision = "APPROVE" ∧
       (fallbackDecision { gfr := some 0 }).confidence = mkRat 9 10) := by
  refine ⟨⟨rfl, by norm_num⟩, by decide, by decide, ?_⟩
  decide

/-- C1 (amended to nonzero GFR): for every record whose GFR is present and
nonzero, rule 1 yields APPROVE at 0.9 when `gfr < 15`, REJECT at 0.8 when
`gfr ≥ 60`, and REVIEW at 0.6 otherwise; and the three single-field records
of the claim produce exactly the stated final decisions. -/
theorem gfr_rule_cascade :
    (∀ (cd : ClinicalData) (g : ℚ), cd.gfr = some g → g ≠ 0 →
      ((g < 15 → rule1 cd initState = ⟨"APPROVE", mkRat 9 10, [.gfrEndStage g]⟩) ∧
       (g ≥ 60 → rule1 cd initState = ⟨"REJECT", mkRat 4 5, [.gfrNormal g]⟩) ∧
       (15 ≤ g → g < 60 → rule1 cd initState = ⟨"REVIEW", mkRat 3 5, [.gfrContext g]⟩))) ∧
    fallbackDecision { gfr := some 12 } = ⟨"APPROVE", mkRat 9 10, [.gfrEndStage 12]⟩ ∧
    fallbackDecision { gfr := some 70 } = ⟨"REJECT", mkRat 4 5, [.gfrNormal 70]⟩ ∧
    fallbackDecision { gfr := some 30 } = ⟨"REVIEW", mkRat 3 5, [.gfrContext 30]⟩ := by
  refine ⟨?_, by decide, by decide, by decide⟩
  intro cd g hg hnz
  refine ⟨?_, ?_, ?_⟩
  · intro hlt
    simp [rule1, hg, hnz, hlt, initState]
  · intro hge
    have h1 : ¬ g < 15 := by linarith
    simp [rule1, hg, hnz, h1, hge, initState]
  · intro hle hlt
    have h1 : ¬ g < 15 := by linarith
    have h2 : ¬ g ≥ 60 := by linarith
    simp [rule1, hg, hnz, h1, h2, initState]

/-- C1 witness: the amended rule applied at `gfr = 12`. -/
theorem gfr_rule_cascade_witness :
    rule1 { gfr := some 12 } initState = ⟨"APPROVE", mkRat 9 10, [.gfrEndStage 12]⟩ :=
  (gfr_rule_cascade.1 { gfr := some 12 } 12 rfl (by norm_num)).1 (by norm_num)

/-! ### C2: the severe-proteinuria rule -/

/-- C2: whenever proteinuria is present and exceeds 3.5 g/day, rule 2 (after
rule 1) rewrites the decision to APPROVE and the confidence to
`max(current, 0.85)`, whatever the prior state; in particular
`\x7bgfr: 70, proteinuria: 4.0\x7d` ends APPROVE, overriding the GFR-driven
REJECT. -/
theorem proteinuria_rule_severe :
    (∀ (cd : ClinicalData) (p : ℚ) (s : FallbackState), cd.proteinuria = some p →
      p > mkRat 7 2 →
      rule2 cd s =
        ⟨"APPROVE", max s.confidence (mkRat 17 20), s.rationale ++ [.proteinuriaSevere p]⟩) ∧
    fallbackDecision { gfr := some 70, proteinuria := some 4 } =
      ⟨"APPROVE", mkRat 17 20, [.gfrNormal 70, .proteinuriaSevere 4]⟩ := by
  constructor
  · intro cd p s hp hgt
    have hq : (0 : ℚ) < mkRat 7 2 := by norm_num [mkRat]
    have hnz : p ≠ 0 := by intro h; rw [h] at hgt; exact absurd (hq.trans hgt) (lt_irrefl 0)
    simp [rule2, hp, hnz, hgt]
  · decide

/-- C2 witness: the severe-proteinuria rule applied at `p = 4` over the
initial state. -/
theorem proteinuria_rule_severe_witness :
    rule2 { proteinuria := some 4 } initState =
      ⟨"APPROVE", max initState.confidence (mkRat 17 20), [.proteinuriaSevere 4]⟩ := by
  have h := proteinuria_rule_severe.1 { proteinuria := some 4 } 4 initState rfl (by decide)
  simpa [initState] using h

/-! ### C3: the complications rule -/

/-- C3: whenever at least one complication is present, rule 3 (applied
last) rewrites the decision to APPROVE and the confidence to
`max(current, 0.8)`, regardless of the prior state; in particular
`\x7bcomplications: ["anemia"]\x7d` alone yields APPROVE with confidence at
least 0.8. -/
theorem complications_rule :
    (∀ (cd : ClinicalData) (s : FallbackState), cd.complications ≠ [] →
      rule3 cd s =
        ⟨"APPROVE", max s.confidence (mkRat 4 5),
          s.rationale ++ [.complicationsPresent (cd.complications.map (·.name))]⟩) ∧
    (fallbackDecision { complications := [⟨"anemia", ""⟩] }).decision = "APPROVE" ∧
    (fallbackDecision { complications := [⟨"anemia", ""⟩] }).confidence ≥ mkRat 4 5 := by
  refine ⟨?_, by decide, by decide⟩
  intro cd s hne
  simp [rule3, hne]

/-- C3 witness: the complications rule applied over the REJECT state that
rule 1 produces for `gfr = 70`. -/
theorem complications_rule_witness :
    rule3 { complications := [⟨"anemia", ""⟩] } ⟨"REJECT", mkRat 4 5, []⟩ =
      ⟨"APPROVE", max (mkRat 4 5) (mkRat 4 5), [.complicationsPresent ["anemia"]]⟩ :=
  complications_rule.1 { complications := [⟨"anemia", ""⟩] } ⟨"REJECT", mkRat 4 5, []⟩
    (by decide)

/-! ### C4: the low-proteinuria branch never downgrades REJECT/REVIEW -/

/-- C4: with proteinuria present (truthy) and below 1.0 g/day, rule 2
rewrites the state to REVIEW at 0.7 exactly when the decision is currently
APPROVE; for any other current decision, decision and confidence are left
unchanged (only the rationale message is pushed). -/
theorem low_proteinuria_branch :
    ∀ (cd : ClinicalData) (p : ℚ) (s : FallbackState), cd.proteinuria = some p →
      p ≠ 0 → p < 1 →
      ((s.decision = "APPROVE" →
         rule2 cd s = ⟨"REVIEW", mkRat 7 10, s.rationale ++ [.proteinuriaMild p]⟩) ∧
       (s.decision ≠ "APPROVE" →
         rule2 cd s = ⟨s.decision, s.confidence, s.rationale ++ [.proteinuriaMild p]⟩)) := by
  intro cd p s hp hnz hlt
  have hng : ¬ p > mkRat 7 2 := by
    intro h
    have : (1 : ℚ) < mkRat 7 2 := by norm_num [mkRat]
    linarith
  constructor
  · intro ha
    simp [rule2, hp, hnz, hng, hlt, ha]
  · intro hna
    simp [rule2, hp, hnz, hng, hlt, hna]

/-- C4 witness: low proteinuria (0.5 g/day) leaves the GFR-driven REJECT
state unchanged apart from the rationale push. -/
theorem low_proteinuria_branch_witness :
    rule2 { proteinuria := some (mkRat 1 2) } ⟨"REJECT", mkRat 4 5, []⟩ =
      ⟨"REJECT", mkRat 4 5, [.proteinuriaMild (mkRat 1 2)]⟩ := by
  have h := (low_proteinuria_branch { proteinuria := some (mkRat 1 2) } (mkRat 1 2)
    ⟨"REJECT", mkRat 4 5, []⟩ rfl (by decide) (by decide)).2 (by decide)
  simpa using h

/-! ### C10: the default state when no rule fires -/

/-- C10: with no truthy GFR, no truthy proteinuria and no complications, no
rule fires and the fallback returns the initial REVIEW state at confidence
0.5 with an empty rationale. -/
theorem fallback_default_review :
    ∀ cd : ClinicalData, truthyQ cd.gfr = false → truthyQ cd.proteinuria = false →
      cd.complications = [] →
      fallbackDecision cd = ⟨"REVIEW", mkRat 1 2, []⟩ := by
  intro cd hg hp hc
  have h1 : rule1 cd initState = initState := by
    unfold rule1
    cases hgfr : cd.gfr with
    | none => rfl
    | some g =>
      rw [hgfr] at hg
      simp only [truthyQ, bne_eq_false_iff_eq] at hg
      simp [hg]
  have h2 : rule2 cd initState = initState := by
    unfold rule2
    cases hprot : cd.proteinuria with
    | none => rfl
    | some p =>
      rw [hprot] at hp
      simp only [truthyQ, bne_eq_false_iff_eq] at hp
      simp [hp]
  have h3 : rule3 cd initState = initState := by
    unfold rule3
    simp [hc]
  unfold fallbackDecision
  rw [h1, h2, h3]
  rfl

/-- C10 witness: the all-absent record. -/
theorem fallback_default_review_witness :
    fallbackDecision { } = ⟨"REVIEW", mkRat 1 2, []⟩ :=
  fallback_default_review { } rfl rfl rfl

/-! ### C5: unparsable model output falls back, never fails -/

/-- C5: whenever `extractJSONFromText` fails on the model's text, the
`/analyze` handler responds 200 with the rule-based fallback decision and
reports the `rule-based-fallback` source; the parse error is not
propagated. -/
theorem analyze_unparsable_fallback :
    ∀ (t : String) (cd : ClinicalData), extractJSONFromText t = none →
      analyzeRespond t cd =
        ⟨200, .fallback (fallbackDecision cd), "rule_based_decision_generated"⟩ ∧
      (analyzeRespond t cd).decision.aiModel = "rule-based-fallback" := by
  intro t cd h
  have he : externalAttempt t = .error "Unable to parse JSON from AI response" := by
    unfold externalAttempt
    rw [h]
  unfold analyzeRespond
  rw [he]
  exact ⟨rfl, rfl⟩

/-- C5 witness: plain prose with no braces takes the fallback path. -/
theorem analyze_unparsable_fallback_witness :
    analyzeRespond "I cannot provide a decision." { gfr := some 30 } =
      ⟨200, .fallback (fallbackDecision { gfr := some 30 }),
        "rule_based_decision_generated"⟩ :=
  (analyze_unparsable_fallback "I cannot provide a decision." { gfr := some 30 } rfl).1

/-! ### C6: the shape of `extractJSONFromText` -/

/-- C6 counterexample.  The claim (and spec) say step 2 parses "the first
balanced `\x7b...\x7d` span"; the code instead takes the substring from the
FIRST opening brace to the LAST closing brace.  On
`\x7b"a": 1\x7d\x7d` the first balanced span parses to an object, but the
code's span has a trailing brace, `JSON.parse` fails, and the whole
extraction fails. -/
theorem extractJSON_first_balanced_counterexample :
    specExtractJSON "\x7b\"a\": 1\x7d\x7d" = some (.obj [("a", .num 1)]) ∧
    extractJSONFromText "\x7b\"a\": 1\x7d\x7d" = none ∧
    extractJSONFromText "\x7b\"a\": 1\x7d\x7d" ≠ specExtractJSON "\x7b\"a\": 1\x7d\x7d" :=
  ⟨rfl, rfl, fun h => Option.noConfusion h⟩

/-- C6 (amended): `extractJSONFromText` equals the three-step algorithm in
which step 2 parses the span from the first opening brace to the last
closing brace (instead of the first balanced span): strip fences, parse
that span, else parse the fenced json block of the original text, else
fail. -/
theorem extractJSON_eq_three_step (t : String) :
    extractJSONFromText t = threeStepExtract t := by
  unfold extractJSONFromText threeStepExtract braceSpanCandidate mdJsonCandidate
  by_cases ht : t = ""
  · simp [ht]
  · simp only [ht, if_false]
    cases h1 : idxOf? lbraceChar (fenceCleaned t) with
    | none =>
      cases h2 : mdJsonFind t.data with
      | none => simp
      | some inner =>
        by_cases hi : inner = [] <;> simp [hi, Option.bind]
    | some fb =>
      cases h2 : lastIdxOf? rbraceChar (fenceCleaned t) with
      | none =>
        cases h3 : mdJsonFind t.data with
        | none => simp
        | some inner =>
          by_cases hi : inner = [] <;> simp [hi, Option.bind]
      | some lb =>
        by_cases hle : fb ≤ lb
        · simp only [hle, if_true, Option.some_bind]
          cases jsonParse ((fenceCleaned t).drop fb |>.take (lb + 1 - fb)) with
          | none =>
            cases h3 : mdJsonFind t.data with
            | none => simp
            | some inner =>
              by_cases hi : inner = [] <;> simp [hi, Option.bind]
          | some v => simp
        · simp only [hle, if_false, Option.none_bind]
          cases h3 : mdJsonFind t.data with
          | none => simp
          | some inner =>
            by_cases hi : inner = [] <;> simp [hi, Option.bind]

/-! ### C7: outcome and confidence ranges of returned decisions -/

theorem rule1_inv (cd : ClinicalData) (s : FallbackState) (h : stateInv s) :
    stateInv (rule1 cd s) := by
  have b910 : (0 : ℚ) ≤ mkRat 9 10 ∧ (mkRat 9 10 : ℚ) ≤ 1 := by decide
  have b45 : (0 : ℚ) ≤ mkRat 4 5 ∧ (mkRat 4 5 : ℚ) ≤ 1 := by decide
  have b35 : (0 : ℚ) ≤ mkRat 3 5 ∧ (mkRat 3 5 : ℚ) ≤ 1 := by decide
  unfold rule1
  cases cd.gfr with
  | none => exact h
  | some g =>
    dsimp only
    split
    · split
      · exact ⟨by simp [outcomeSet], b910.1, b910.2⟩
      · split
        · exact ⟨by simp [outcomeSet], b45.1, b45.2⟩
        · exact ⟨by simp [outcomeSet], b35.1, b35.2⟩
    · exact h

theorem rule2_inv (cd : ClinicalData) (s : FallbackState) (h : stateInv s) :
    stateInv (rule2 cd s) := by
  have b710 : (0 : ℚ) ≤ mkRat 7 10 ∧ (mkRat 7 10 : ℚ) ≤ 1 := by decide
  obtain ⟨hd, h0, h1⟩ := h
  unfold rule2
  cases cd.proteinuria with
  | none => exact ⟨hd, h0, h1⟩
  | some p =>
    dsimp only
    split
    · split
      · exact ⟨by simp [outcomeSet], le_max_of_le_left h0,
          max_le h1 (by decide)⟩
      · split
        · split
          · exact ⟨by simp [outcomeSet], b710.1, b710.2⟩
          · exact ⟨hd, h0, h1⟩
        · exact ⟨hd, h0, h1⟩
    · exact ⟨hd, h0, h1⟩

theorem rule3_inv (cd : ClinicalData) (s : FallbackState) (h : stateInv s) :
    stateInv (rule3 cd s) := by
  obtain ⟨hd, h0, h1⟩ := h
  unfold rule3
  split
  · exact ⟨by simp [outcomeSet], le_max_of_le_left h0, max_le h1 (by decide)⟩
  · exact ⟨hd, h0, h1⟩

theorem fallbackDecision_inv (cd : ClinicalData) : stateInv (fallbackDecision cd) :=
  rule3_inv cd _ (rule2_inv cd _ (rule1_inv cd _ ⟨by simp [outcomeSet, initState],
    by decide, by decide⟩))

/-- C7 counterexample.  The claim quantifies over both paths, but the
external path copies the parsed model JSON verbatim, with no validation:
the model text `\x7b"decision":"MAYBE","confidence":2\x7d` produces an
external decision whose outcome is not in `\x7bAPPROVE, REJECT, REVIEW\x7d`
and whose confidence is not in `[0, 1]`. -/
theorem analyze_decision_unvalidated :
    ¬ (((analyzeRespond "\x7b\"decision\":\"MAYBE\",\"confidence\":2\x7d"
          { }).decision.outcomeOK) ∧
       ((analyzeRespond "\x7b\"decision\":\"MAYBE\",\"confidence\":2\x7d"
          { }).decision.confidenceOK)) := by
  have hd : (analyzeRespond "\x7b\"decision\":\"MAYBE\",\"confidence\":2\x7d"
      { }).decision =
      .external (some (.str "MAYBE")) (some (.num 2)) none none none := rfl
  rw [hd]
  rintro ⟨⟨s, hs, hmem⟩, -⟩
  simp only [Option.some.injEq, JsonVal.str.injEq] at hs
  subst hs
  simp [outcomeSet] at hmem

/-- A successful external attempt is always the verbatim-copy metadata of a
parsed non-`null` value (the only `.ok` the inner `try` can produce). -/
theorem externalAttempt_ok_shape {t : String} {m : DecisionMeta}
    (h : externalAttempt t = .ok m) :
    ∃ v, extractJSONFromText t = some v ∧ v ≠ JsonVal.null ∧
      m = .external (jsGet v "decision") (jsGet v "confidence") (jsGet v "rationale")
        (jsGet v "key_factors") (jsGet v "recommendations") := by
  unfold externalAttempt at h
  cases hv : extractJSONFromText t with
  | none => rw [hv] at h; exact absurd h (by simp)
  | some v =>
    rw [hv] at h
    cases v with
    | null => exact absurd h (by simp)
    | bool b =>
      simp only [Except.ok.injEq] at h
      exact ⟨.bool b, rfl, fun hn => JsonVal.noConfusion hn, h.symm⟩
    | num q =>
      simp only [Except.ok.injEq] at h
      exact ⟨.num q, rfl, fun hn => JsonVal.noConfusion hn, h.symm⟩
    | str s =>
      simp only [Except.ok.injEq] at h
      exact ⟨.str s, rfl, fun hn => JsonVal.noConfusion hn, h.symm⟩
    | arr xs =>
      simp only [Except.ok.injEq] at h
      exact ⟨.arr xs, rfl, fun hn => JsonVal.noConfusion hn, h.symm⟩
    | obj fs =>
      simp only [Except.ok.injEq] at h
      exact ⟨.obj fs, rfl, fun hn => JsonVal.noConfusion hn, h.symm⟩

/-- C7 (amended): every fallback-path decision - every response reporting
the `rule-based-fallback` source, whether the trigger was unparsable text
or the `TypeError` of a parsed `null` - has an outcome in
`\x7bAPPROVE, REJECT, REVIEW\x7d` and a confidence in `[0, 1]`; the
external path instead copies the `decision`, `confidence`, `rationale`,
`key_factors` and `recommendations` fields verbatim off the parsed model
JSON, without validation. -/
theorem analyze_decision_fields :
    (∀ (t : String) (cd : ClinicalData),
      (analyzeRespond t cd).decision.aiModel = "rule-based-fallback" →
      ((analyzeRespond t cd).decision.outcomeOK ∧
       (analyzeRespond t cd).decision.confidenceOK)) ∧
    (∀ (t : String) (cd : ClinicalData) (v : JsonVal), extractJSONFromText t = some v →
      v ≠ JsonVal.null →
      (analyzeRespond t cd).decision =
        .external (jsGet v "decision") (jsGet v "confidence") (jsGet v "rationale")
          (jsGet v "key_factors") (jsGet v "recommendations")) := by
  constructor
  · intro t cd h
    unfold analyzeRespond at h ⊢
    cases he : externalAttempt t with
    | ok m =>
      obtain ⟨v, -, -, rfl⟩ := externalAttempt_ok_shape he
      rw [he] at h
      simp [DecisionMeta.aiModel] at h
    | error e =>
      have hinv := fallbackDecision_inv cd
      exact ⟨hinv.1, hinv.2⟩
  · intro t cd v hv hnn
    have he : externalAttempt t =
        .ok (.external (jsGet v "decision") (jsGet v "confidence") (jsGet v "rationale")
          (jsGet v "key_factors") (jsGet v "recommendations")) := by
      unfold externalAttempt
      rw [hv]
      cases v with
      | null => exact absurd rfl hnn
      | bool b => rfl
      | num q => rfl
      | str s => rfl
      | arr xs => rfl
      | obj fs => rfl
    unfold analyzeRespond
    rw [he]

/-- C7 witness: the fallback part at a fenced `null` (the `TypeError`
trigger: the text parses to JSON `null`, whose property read throws) and at
plain unparsable prose, and the verbatim part at a parsed object with an
APPROVE decision. -/
theorem analyze_decision_fields_witness :
    ((analyzeRespond "```json null ```" { }).decision.outcomeOK ∧
     (analyzeRespond "```json null ```" { }).decision.confidenceOK) ∧
    ((analyzeRespond "no json here" { }).decision.outcomeOK ∧
     (analyzeRespond "no json here" { }).decision.confidenceOK) ∧
    (analyzeRespond "\x7b\"decision\":\"APPROVE\"\x7d" { }).decision =
      .external (some (.str "APPROVE")) none none none none := by
  refine ⟨?_, ?_, ?_⟩
  · exact analyze_decision_fields.1 "```json null ```" { } rfl
  · exact analyze_decision_fields.1 "no json here" { } rfl
  · exact (analyze_decision_fields.2 "\x7b\"decision\":\"APPROVE\"\x7d" { }
      (.obj [("decision", .str "APPROVE")]) rfl (fun h => JsonVal.noConfusion h)).trans rfl

/-! ### C8: GFR extraction from text -/

/-- C8 counterexample.  The claim quantifies over EVERY text containing the
substring `"GFR: 12 mL/min/1.73m²"`, but the extractor takes the first
match of the pattern in the text: a text with an earlier GFR reading yields
that earlier value, not 12. -/
theorem extractGFR_first_match_counterexample :
    occursIn "GFR: 12 mL/min/1.73m²".data
      "GFR: 7 mL/min/1.73m2. GFR: 12 mL/min/1.73m²".data = true ∧
    extractGFR "GFR: 7 mL/min/1.73m2. GFR: 12 mL/min/1.73m²" = some 7 ∧
    extractGFR "GFR: 7 mL/min/1.73m2. GFR: 12 mL/min/1.73m²" ≠ some 12 := by
  refine ⟨by decide, by decide, by decide⟩

/-- The GFR pattern matches at the start of `"GFR: 12 mL/min/1.73m²" ++ post`
for every tail, capturing 12; the match never reads past the unit. -/
theorem gfrMatchAt_lit (post : List Char) :
    gfrMatchAt ("GFR: 12 mL/min/1.73m²".data ++ post) = some (mkRat 12 1) := rfl

theorem extractGFRAux_of_first (pre post : List Char)
    (h : ∀ j, j < pre.length →
      gfrMatchAt ((pre ++ "GFR: 12 mL/min/1.73m²".data ++ post).drop j) = none) :
    extractGFRAux (pre ++ "GFR: 12 mL/min/1.73m²".data ++ post) = some (mkRat 12 1) := by
  induction pre with
  | nil =>
    simp only [List.nil_append]
    exact rfl
  | cons c pre ih =>
    rw [List.cons_append]
    show extractGFRAux (c :: (pre ++ "GFR: 12 mL/min/1.73m²".data ++ post)) = _
    have h0 : gfrMatchAt (c :: (pre ++ "GFR: 12 mL/min/1.73m²".data ++ post)) = none := by
      have := h 0 (Nat.succ_pos _)
      simpa using this
    simp only [extractGFRAux]
    rw [h0]
    exact ih (fun j hj => by simpa using h (j + 1) (Nat.succ_lt_succ hj))

/-- C8 (amended to the first match): for every text that contains the
substring `"GFR: 12 mL/min/1.73m²"` and on which the GFR pattern does not
match at any position before that occurrence, extraction yields
`gfr = 12.0`.  (The pattern's first match determines the field; the match
inside the quoted substring captures 12.) -/
theorem extractGFR_first_occurrence (s : String) (pre post : List Char)
    (hsplit : s.data = pre ++ "GFR: 12 mL/min/1.73m²".data ++ post)
    (hearlier : ∀ j, j < pre.length → gfrMatchAt (s.data.drop j) = none) :
    extractGFR s = some 12 := by
  rw [hsplit] at hearlier
  unfold extractGFR
  rw [hsplit, extractGFRAux_of_first pre post hearlier]
  have : mkRat 12 1 = (12 : ℚ) := by decide
  rw [this]

/-- C8 witness: the bare substring itself (no earlier positions). -/
theorem extractGFR_first_occurrence_witness :
    extractGFR "GFR: 12 mL/min/1.73m²" = some 12 :=
  extractGFR_first_occurrence "GFR: 12 mL/min/1.73m²" [] [] (by simp)
    (fun j hj => absurd hj (by simp))

/-! ### C9: the term expander

The development relates the scanner `findWB` to the declarative occurrence
statement `occAt`: `findWB` returns exactly the slice of the text at the
least index carrying a word-bounded case-insensitive occurrence of the
abbreviation. -/

theorem ciSlice_some {abbr : List Char} : ∀ {cs sl r : List Char},
    ciSlice abbr cs = some (sl, r) →
      sl = cs.take abbr.length ∧ r = cs.drop abbr.length ∧
      abbr.length ≤ cs.length ∧ ciListEq abbr sl = true := by
  induction abbr with
  | nil =>
    intro cs sl r h
    simp only [ciSlice, Option.some.injEq, Prod.mk.injEq] at h
    obtain ⟨rfl, rfl⟩ := h
    simp [ciListEq]
  | cons p ps ih =>
    intro cs sl r h
    cases cs with
    | nil => simp [ciSlice] at h
    | cons c cs =>
      simp only [ciSlice] at h
      split at h
      case isTrue hc =>
        cases hr : ciSlice ps cs with
        | some pr =>
          obtain ⟨sl', r'⟩ := pr
          rw [hr] at h
          simp only [Option.some.injEq, Prod.mk.injEq] at h
          obtain ⟨h1, h2⟩ := h
          obtain ⟨e1, e2, e3, e4⟩ := ih hr
          subst h1 h2
          refine ⟨?_, ?_, ?_, ?_⟩
          · simp [e1]
          · simp [e2]
          · simpa using Nat.succ_le_succ e3
          · simp [ciListEq, hc, e4]
        | none => rw [hr] at h; exact absurd h (by simp)
      case isFalse => exact absurd h (by simp)

theorem ciSlice_of_eq {abbr : List Char} : ∀ {cs : List Char},
    abbr.length ≤ cs.length → ciListEq abbr (cs.take abbr.length) = true →
      ciSlice abbr cs = some (cs.take abbr.length, cs.drop abbr.length) := by
  induction abbr with
  | nil => intro cs _ _; simp [ciSlice]
  | cons p ps ih =>
    intro cs hlen heq
    cases cs with
    | nil => simp at hlen
    | cons c cs =>
      simp only [List.length_cons, List.take_succ_cons, ciListEq,
        Bool.and_eq_true] at heq
      have hlen' : ps.length ≤ cs.length := by simpa using hlen
      simp only [ciSlice, heq.1, if_true]
      rw [ih hlen' heq.2]
      simp

theorem wbHere_some_iff (abbr : List Char) (prev : Option Char) (cs sl : List Char) :
    wbHere abbr prev cs = some sl ↔
      (boundaryL prev = true ∧ abbr.length ≤ cs.length ∧
       ciListEq abbr (cs.take abbr.length) = true ∧
       boundaryR (cs.drop abbr.length) = true ∧ sl = cs.take abbr.length) := by
  constructor
  · intro h
    unfold wbHere at h
    split at h
    case isTrue hb =>
      cases hr : ciSlice abbr cs with
      | some pr =>
        obtain ⟨sl', r'⟩ := pr
        simp only [hr] at h
        split at h
        next hbr =>
          simp only [Option.some.injEq] at h
          subst h
          obtain ⟨e1, e2, e3, e4⟩ := ciSlice_some hr
          subst e1 e2
          exact ⟨hb, e3, e4, hbr, rfl⟩
        next => exact absurd h (by simp)
      | none => rw [hr] at h; exact absurd h (by simp)
    case isFalse hb => exact absurd h (by simp)
  · rintro ⟨hb, hlen, heq, hbr, rfl⟩
    unfold wbHere
    rw [if_pos hb, ciSlice_of_eq hlen heq]
    show (if boundaryR (cs.drop abbr.length) = true then some (cs.take abbr.length)
      else none) = some (cs.take abbr.length)
    exact if_pos hbr

/-- `boundaryR` of a suffix, via the element at its head. -/
theorem boundaryR_drop (l : List Char) (n : ℕ) :
    boundaryR (l.drop n) =
      (match l.get? n with
       | some c => !isWordChar c
       | none => true) := by
  rw [List.get?_eq_getElem?, ← List.head?_drop]
  cases l.drop n with
  | nil => rfl
  | cons c cs => rfl

/-- `occAt` at the junction of `pre ++ rest`, in terms of the suffix and
the last character of the prefix. -/
theorem occAt_append_iff (abbr pre rest : List Char) :
    occAt abbr (pre ++ rest) pre.length = true ↔
      (boundaryL pre.getLast? = true ∧ abbr.length ≤ rest.length ∧
       ciListEq abbr (rest.take abbr.length) = true ∧
       boundaryR (rest.drop abbr.length) = true) := by
  have hslice : sliceAt (pre ++ rest) pre.length abbr.length = rest.take abbr.length := by
    unfold sliceAt
    rw [List.drop_left]
  have hlen : (pre.length + abbr.length ≤ (pre ++ rest).length) ↔
      abbr.length ≤ rest.length := by
    simp [List.length_append]
  have hprev : (match pre.length with
      | 0 => true
      | j + 1 =>
        match (pre ++ rest).get? j with
        | some p => !isWordChar p
        | none => false) = boundaryL pre.getLast? := by
    rcases List.eq_nil_or_concat pre with rfl | ⟨q, a, rfl⟩
    · rfl
    · simp only [List.concat_eq_append]
      have hlen2 : (q ++ [a]).length = q.length + 1 := by simp
      rw [hlen2]
      have hget : ((q ++ [a]) ++ rest).get? q.length = some a := by
        rw [List.get?_eq_getElem?, List.append_assoc,
          List.getElem?_append_right (Nat.le_refl _)]
        simp
      show (match ((q ++ [a]) ++ rest).get? q.length with
            | some p => !isWordChar p
            | none => false) = boundaryL ((q ++ [a]).getLast?)
      rw [hget, List.getLast?_concat]
      rfl
  have hnext : (match (pre ++ rest).get? (pre.length + abbr.length) with
      | some c => !isWordChar c
      | none => true) = boundaryR (rest.drop abbr.length) := by
    rw [boundaryR_drop]
    have : (pre ++ rest).get? (pre.length + abbr.length) = rest.get? abbr.length := by
      rw [List.get?_eq_getElem?, List.get?_eq_getElem?,
        List.getElem?_append_right (Nat.le_add_right _ _)]
      simp
    rw [this]
  unfold occAt
  rw [hslice, hprev, hnext]
  simp only [Bool.and_eq_true, decide_eq_true_eq, hlen]
  tauto

/-- `wbHere` at the junction of `pre ++ rest` succeeds exactly on a
declarative occurrence at index `pre.length`, returning the slice there. -/
theorem wbHere_occAt (abbr pre rest sl : List Char) :
    wbHere abbr pre.getLast? rest = some sl ↔
      (occAt abbr (pre ++ rest) pre.length = true ∧ sl = rest.take abbr.length) := by
  rw [wbHere_some_iff, occAt_append_iff]
  tauto

/-- The scanner `findWBAux`, started after the prefix `pre`, returns exactly
the slice at the least occurrence index at or beyond `pre.length`. -/
theorem findWBAux_iff (abbr : List Char) (habbr : abbr ≠ []) :
    ∀ (rest pre sl : List Char),
      (findWBAux abbr pre.getLast? rest = some sl ↔
        ∃ k, occAt abbr (pre ++ rest) (pre.length + k) = true ∧
             sl = sliceAt (pre ++ rest) (pre.length + k) abbr.length ∧
             ∀ j, j < k → occAt abbr (pre ++ rest) (pre.length + j) = false) := by
  intro rest
  induction rest with
  | nil =>
    intro pre sl
    constructor
    · intro h
      exact absurd h (by simp [findWBAux])
    · rintro ⟨k, hocc, -, -⟩
      exfalso
      simp only [List.append_nil] at hocc
      unfold occAt at hocc
      simp only [Bool.and_eq_true, decide_eq_true_eq] at hocc
      have hlen := hocc.1
      have hz : abbr.length = 0 := by omega
      exact habbr (List.length_eq_zero.mp hz)
  | cons c cs ih =>
    intro pre sl
    have hgl : (pre ++ [c]).getLast? = some c := List.getLast?_concat pre
    have hlist : (pre ++ [c]) ++ cs = pre ++ c :: cs := by simp
    have hplen : (pre ++ [c]).length = pre.length + 1 := by simp
    constructor
    · intro h
      simp only [findWBAux] at h
      cases hwv : wbHere abbr pre.getLast? (c :: cs) with
      | some sl' =>
        rw [hwv] at h
        simp only [Option.some.injEq] at h
        subst h
        obtain ⟨hocc, hsl⟩ := (wbHere_occAt abbr pre (c :: cs) sl').mp hwv
        refine ⟨0, ?_, ?_, fun j hj => absurd hj (Nat.not_lt_zero j)⟩
        · rw [Nat.add_zero]; exact hocc
        · rw [Nat.add_zero]
          unfold sliceAt
          rw [List.drop_left]
          exact hsl
      | none =>
        rw [hwv] at h
        rw [← hgl] at h
        obtain ⟨k, hocc, hsl, hmin⟩ := (ih (pre ++ [c]) sl).mp h
        rw [hlist, hplen] at hocc hsl hmin
        have e1 : pre.length + 1 + k = pre.length + (k + 1) := by omega
        rw [e1] at hocc hsl
        refine ⟨k + 1, hocc, hsl, ?_⟩
        intro j hj
        cases j with
        | zero =>
          rw [Nat.add_zero]
          cases hv : occAt abbr (pre ++ c :: cs) pre.length with
          | false => rfl
          | true =>
            have hw' := (wbHere_occAt abbr pre (c :: cs)
              ((c :: cs).take abbr.length)).mpr ⟨hv, rfl⟩
            rw [hwv] at hw'
            exact Option.noConfusion hw'
        | succ j' =>
          have e2 : pre.length + 1 + j' = pre.length + (j' + 1) := by omega
          have := hmin j' (by omega)
          rw [e2] at this
          exact this
    · rintro ⟨k, hocc, hsl, hmin⟩
      cases k with
      | zero =>
        rw [Nat.add_zero] at hocc hsl
        have hsl' : sl = (c :: cs).take abbr.length := by
          rw [hsl]
          unfold sliceAt
          rw [List.drop_left]
        have hw' := (wbHere_occAt abbr pre (c :: cs) sl).mpr ⟨hocc, hsl'⟩
        simp only [findWBAux, hw']
      | succ k' =>
        have hocc0 : occAt abbr (pre ++ c :: cs) pre.length = false := by
          have := hmin 0 (Nat.succ_pos _)
          rwa [Nat.add_zero] at this
        have hwv : wbHere abbr pre.getLast? (c :: cs) = none := by
          cases hw2 : wbHere abbr pre.getLast? (c :: cs) with
          | none => rfl
          | some sl' =>
            obtain ⟨hocc', -⟩ := (wbHere_occAt abbr pre (c :: cs) sl').mp hw2
            rw [hocc0] at hocc'
            exact Bool.noConfusion hocc'
        simp only [findWBAux, hwv]
        rw [← hgl]
        apply (ih (pre ++ [c]) sl).mpr
        have e1 : pre.length + 1 + k' = pre.length + (k' + 1) := by omega
        refine ⟨k', ?_, ?_, ?_⟩
        · rw [hlist, hplen, e1]
          exact hocc
        · rw [hlist, hplen, e1]
          exact hsl
        · intro j hj
          rw [hlist, hplen]
          have e2 : pre.length + 1 + j = pre.length + (j + 1) := by omega
          rw [e2]
          exact hmin (j + 1) (by omega)

/-- `findWB` (the embedding of `text.match(/\babbr\b/gi)[0]`) succeeds
exactly when a word-bounded case-insensitive occurrence exists, and returns
the slice at the least occurrence index. -/
theorem findWB_iff (abbr text sl : List Char) (habbr : abbr ≠ []) :
    findWB abbr text = some sl ↔
      ∃ i, occAt abbr text i = true ∧ sl = sliceAt text i abbr.length ∧
        ∀ j, j < i → occAt abbr text j = false := by
  have h := findWBAux_iff abbr habbr text [] sl
  simpa [findWB] using h

/-- The push-per-match fold of `expandMedicalTerms` is the `filterMap` of
the per-abbreviation first match over the table. -/
theorem expand_foldl_filterMap (text : String) (table : List (String × String)) :
    ∀ acc : List TermExpansion,
      table.foldl (fun acc p =>
        match findWB p.1.data text.data with
        | some sl => acc ++ [⟨p.1, p.2, String.mk sl⟩]
        | none => acc) acc =
      acc ++ table.filterMap (fun p => (findWB p.1.data text.data).map
        (fun sl => ⟨p.1, p.2, String.mk sl⟩)) := by
  induction table with
  | nil => intro acc; simp
  | cons p ps ih =>
    intro acc
    simp only [List.foldl_cons, List.filterMap_cons]
    cases h : findWB p.1.data text.data with
    | some sl => simp [h, ih, List.append_assoc]
    | none => simp [h, ih]

/-- C9: for every abbreviation table (of nonempty word-character
abbreviations, which is what the regex construction
`` new RegExp(`\\b` + abbr + `\\b`, 'gi') `` presumes) and every text,
`expandMedicalTerms` returns the text unchanged, plus exactly one expansion
per table entry whose abbreviation has a word-bounded case-insensitive
occurrence in the text, in table order, whose `context` (the spec's
`matchedText`) is the first matched substring; entries with no occurrence
are omitted.  The final conjunct characterises the per-entry matcher: it
succeeds exactly on existence of an occurrence and returns the slice at the
least occurrence index. -/
theorem expandMedicalTerms_spec :
    ∀ (table : List (String × String)) (text : String),
      (∀ p ∈ table, p.1.data ≠ [] ∧ ∀ ch ∈ p.1.data, isWordChar ch = true) →
      ((expandMedicalTerms table text).originalText = text ∧
       (expandMedicalTerms table text).expandedText = text ∧
       (expandMedicalTerms table text).expansions =
         table.filterMap (fun p => (findWB p.1.data text.data).map
           (fun sl => ⟨p.1, p.2, String.mk sl⟩)) ∧
       ∀ p ∈ table, ∀ sl,
         (findWB p.1.data text.data = some sl ↔
           ∃ i, occAt p.1.data text.data i = true ∧
                sl = sliceAt text.data i p.1.data.length ∧
                ∀ j, j < i → occAt p.1.data text.data j = false)) := by
  intro table text htable
  refine ⟨rfl, rfl, ?_, ?_⟩
  · unfold expandMedicalTerms
    exact (expand_foldl_filterMap text table []).trans (by simp)
  · intro p hp sl
    exact findWB_iff p.1.data text.data sl (htable p hp).1

/-- C9 witness: a one-entry table on a text where the abbreviation occurs
both embedded in a word (not reported) and word-bounded in lower case (the
first matched substring). -/
theorem expandMedicalTerms_spec_witness :
    (expandMedicalTerms [("GFR", "glomerular filtration rate")]
      "eGFR and gfr data").expansions =
      [⟨"GFR", "glomerular filtration rate", "gfr"⟩] := by
  have h := (expandMedicalTerms_spec [("GFR", "glomerular filtration rate")]
    "eGFR and gfr data" (by decide)).2.2.1
  exact h.trans (by decide)

end AppealsPOC
